import Mathlib

/-!
Shallow embedding of `relocswap` (src/main.cc): an ELF dynamic-relocation
dumper/shuffler.  Files are modelled as lists of bytes (`List Nat`, each
byte `< 256` on well-formed input); fixed-layout records are decoded
little-endian, with field widths selected by the ELF class (32- vs 64-bit).
Fallible reads return `Option`; the fatal `errExit` paths of the C++ code
correspond to `none`.
-/

namespace Relocswap

/-- Word size in bytes for the given ELF class (`true` = 32-bit):
`Elf32` words/addresses are 4 bytes, `Elf64` ones are 8 bytes. -/
def wordSize (is32 : Bool) : Nat := if is32 then 4 else 8

/-- `sizeof(RelT)` for the given class: two word-sized fields
(`r_offset`, `r_info`). -/
def relTWidth (is32 : Bool) : Nat := 2 * wordSize is32

/-- `sizeof(RelaT)` for the given class: three word-sized fields
(`r_offset`, `r_info`, `r_addend`). -/
def relaTWidth (is32 : Bool) : Nat := 3 * wordSize is32

/-- `sizeof(Elf32_Rel)` = 8 bytes, the constant `relocSymName` compares
`sizeof(RelT)` against. -/
def elf32RelWidth : Nat := 8

/-- Little-endian decode of a byte list into a natural number. -/
def leDecode : List Nat → Nat
  | [] => 0
  | b :: bs => b + 256 * leDecode bs

/-- Little-endian encode of `v` into exactly `w` bytes (value taken
modulo `256^w`, as a machine store does). -/
def leEncode : Nat → Nat → List Nat
  | 0, _ => []
  | w + 1, v => v % 256 :: leEncode w (v / 256)

/-- The `k` bytes of file `f` starting at position `p` (fewer if the file
ends first). -/
def extract (f : List Nat) (p k : Nat) : List Nat := (f.drop p).take k

/-- A read of `k` bytes at stream position `p`: succeeds exactly when the
file holds `k` bytes there; a short read is fatal (`none`). -/
def readBytes (f : List Nat) (p k : Nat) : Option (List Nat) :=
  if p + k ≤ f.length then some (extract f p k) else none

/-- Overwrite of `bs` at position `p` of file `f` (an `ofstream`
`seekp`+`write`): bytes before `p` are kept, a seek past the end pads
with zeros, bytes after the written region are kept. -/
def writeAt (f : List Nat) (p : Nat) (bs : List Nat) : List Nat :=
  f.take p ++ List.replicate (p - f.length) 0 ++ bs ++ f.drop (p + bs.length)

/-- `ElfN_Rel`: relocation without addend. -/
structure Rel where
  r_offset : Nat
  r_info : Nat
deriving DecidableEq

/-- `ElfN_Rela`: relocation with addend (the addend is kept as its
unsigned `w`-byte bit pattern). -/
structure Rela where
  r_offset : Nat
  r_info : Nat
  r_addend : Nat
deriving DecidableEq

/-- `ElfN_Sym`, restricted to the one field the program reads
(`st_name`, a 4-byte word at offset 0 in both classes). -/
structure Sym where
  st_name : Nat
deriving DecidableEq

/-- Decode an `ElfN_Rel` from its on-disk bytes (two `w`-byte words). -/
def decodeRel (w : Nat) (bs : List Nat) : Rel :=
  { r_offset := leDecode (extract bs 0 w), r_info := leDecode (extract bs w w) }

/-- Encode an `ElfN_Rel` to its on-disk bytes. -/
def encodeRel (w : Nat) (r : Rel) : List Nat :=
  leEncode w r.r_offset ++ leEncode w r.r_info

/-- Decode an `ElfN_Rela` from its on-disk bytes (three `w`-byte words). -/
def decodeRela (w : Nat) (bs : List Nat) : Rela :=
  { r_offset := leDecode (extract bs 0 w), r_info := leDecode (extract bs w w),
    r_addend := leDecode (extract bs (2 * w) w) }

/-- Encode an `ElfN_Rela` to its on-disk bytes. -/
def encodeRela (w : Nat) (r : Rela) : List Nat :=
  leEncode w r.r_offset ++ leEncode w r.r_info ++ leEncode w r.r_addend

/-- Decode an `ElfN_Sym`: `st_name` is the 4-byte word at offset 0. -/
def decodeSym (bs : List Nat) : Sym := { st_name := leDecode (bs.take 4) }

/-- Section-header fields the program consumes (`ElfN_Shdr`). -/
structure Shdr where
  sh_name : Nat
  sh_type : Nat
  sh_offset : Nat
  sh_size : Nat
  sh_entsize : Nat
deriving DecidableEq

def SHT_STRTAB : Nat := 3
def SHT_RELA : Nat := 4
def SHT_REL : Nat := 9
def SHT_DYNSYM : Nat := 11

/-- The in-memory model built by `ElfT::parse`: the two relocation
sequences (each entry paired with the absolute file offset it was read
from), the symbol table, the dynamic string table and the section-name
string table. -/
structure ElfState where
  relocs : List (Nat × Rel)
  relocsAddends : List (Nat × Rela)
  symbolTable : List Sym
  stringTable : List Nat
  sectionStringTable : List Nat
deriving DecidableEq

/-- The null-terminated byte run starting at `idx` in a string table
(stops at the table's end as well). -/
def cstrAt (tbl : List Nat) (idx : Nat) : List Nat :=
  (tbl.drop idx).takeWhile (fun b => b ≠ 0)

/-- `ElfT::isSection`: the index is inside the section-name string table
and the null-terminated string there equals `name`. -/
def isSection (sectionStringTable : List Nat) (idx : Nat) (name : List Nat) : Bool :=
  decide (idx < sectionStringTable.length) && decide (cstrAt sectionStringTable idx = name)

/-- Bytes of ".rel.dyn". -/
def relDynName : List Nat := [46, 114, 101, 108, 46, 100, 121, 110]

/-- Bytes of ".rela.dyn". -/
def relaDynName : List Nat := [46, 114, 101, 108, 97, 46, 100, 121, 110]

/-- Bytes of ".rela.plt". -/
def relaPltName : List Nat := [46, 114, 101, 108, 97, 46, 112, 108, 116]

/-- Bytes of ".dynstr". -/
def dynstrName : List Nat := [46, 100, 121, 110, 115, 116, 114]

/-- Bytes of ".dynsym". -/
def dynsymName : List Nat := [46, 100, 121, 110, 115, 121, 109]

/-- The loop of `ElfT::addRels` for `SHT_REL`: read `n` entries
sequentially starting at `pos`, recording with each entry the stream
position immediately before reading it; each read advances by
`sizeof(RelT)` = `2*w`. -/
def readRels (f : List Nat) (w : Nat) : Nat → Nat → Option (List (Nat × Rel))
  | _, 0 => some []
  | pos, n + 1 =>
    match readBytes f pos (2 * w) with
    | none => none
    | some bs =>
      match readRels f w (pos + 2 * w) n with
      | none => none
      | some rest => some ((pos, decodeRel w bs) :: rest)

/-- The loop of `ElfT::addRels` for `SHT_RELA`: as `readRels` but with
`sizeof(RelaT)` = `3*w` per entry. -/
def readRelas (f : List Nat) (w : Nat) : Nat → Nat → Option (List (Nat × Rela))
  | _, 0 => some []
  | pos, n + 1 =>
    match readBytes f pos (3 * w) with
    | none => none
    | some bs =>
      match readRelas f w (pos + 3 * w) n with
      | none => none
      | some rest => some ((pos, decodeRela w bs) :: rest)

/-- `ElfT::addRels`: seek to `sh_offset`, read `sh_size / sh_entsize`
entries, and append them (in read order) to the no-addend sequence for
`SHT_REL`, else to the with-addend sequence. -/
def addRels (f : List Nat) (w : Nat) (st : ElfState) (sh : Shdr) : Option ElfState :=
  if sh.sh_type = SHT_REL then
    match readRels f w sh.sh_offset (sh.sh_size / sh.sh_entsize) with
    | none => none
    | some l => some { st with relocs := st.relocs ++ l }
  else
    match readRelas f w sh.sh_offset (sh.sh_size / sh.sh_entsize) with
    | none => none
    | some l => some { st with relocsAddends := st.relocsAddends ++ l }

/-- `ElfT::addStringTable`: resize the table to `sh_size` and read
`sh_size` bytes from `sh_offset` over it (so the section's bytes replace
any previous content wholesale). -/
def addStringTable (f : List Nat) (st : ElfState) (sh : Shdr) : Option ElfState :=
  match readBytes f sh.sh_offset sh.sh_size with
  | none => none
  | some bs => some { st with stringTable := bs }

/-- The loop of `ElfT::addSymbolTable`: read `n` entries of `entsize`
bytes each, decoding `st_name` from each. -/
def readSyms (f : List Nat) (entsize : Nat) : Nat → Nat → Option (List Sym)
  | _, 0 => some []
  | pos, n + 1 =>
    match readBytes f pos entsize with
    | none => none
    | some bs =>
      match readSyms f entsize (pos + entsize) n with
      | none => none
      | some rest => some (decodeSym bs :: rest)

/-- `ElfT::addSymbolTable`: read `sh_size / sh_entsize` entries of
`sh_entsize` bytes each from `sh_offset` and append them (`push_back`)
to the symbol table. -/
def addSymbolTable (f : List Nat) (st : ElfState) (sh : Shdr) : Option ElfState :=
  match readSyms f sh.sh_entsize sh.sh_offset (sh.sh_size / sh.sh_entsize) with
  | none => none
  | some l => some { st with symbolTable := st.symbolTable ++ l }

/-- The dispatch of one iteration of the section loop in `ElfT::parse`:
recognized relocation sections go to `addRels`, `.dynstr` to
`addStringTable`, `.dynsym` to `addSymbolTable`, anything else is
skipped. -/
def processSection (f : List Nat) (w : Nat) (st : ElfState) (sh : Shdr) : Option ElfState :=
  if (sh.sh_type = SHT_REL ∨ sh.sh_type = SHT_RELA) ∧
      (isSection st.sectionStringTable sh.sh_name relDynName
        ∨ isSection st.sectionStringTable sh.sh_name relaDynName
        ∨ isSection st.sectionStringTable sh.sh_name relaPltName) then
    addRels f w st sh
  else if sh.sh_type = SHT_STRTAB ∧ isSection st.sectionStringTable sh.sh_name dynstrName then
    addStringTable f st sh
  else if sh.sh_type = SHT_DYNSYM ∧ isSection st.sectionStringTable sh.sh_name dynsymName then
    addSymbolTable f st sh
  else
    some st

/-- The section loop of `ElfT::parse`, over the already-decoded section
headers in table order. -/
def parseSections (f : List Nat) (w : Nat) : ElfState → List Shdr → Option ElfState
  | st, [] => some st
  | st, sh :: rest =>
    match processSection f w st sh with
    | none => none
    | some st2 => parseSections f w st2 rest

/-- `ELF32_R_SYM`: the symbol index is the info value shifted right by
8 bits. -/
def elf32RSym (rInfo : Nat) : Nat := rInfo >>> 8

/-- `ELF64_R_SYM`: the symbol index is the info value shifted right by
32 bits. -/
def elf64RSym (rInfo : Nat) : Nat := rInfo >>> 32

/-- The symbol-index extraction `relocSymName` performs: it picks the
split by comparing `sizeof(RelT)` with `sizeof(Elf32_Rel)`. -/
def relocSymIdx (is32 : Bool) (rInfo : Nat) : Nat :=
  if relTWidth is32 = elf32RelWidth then elf32RSym rInfo else elf64RSym rInfo

/-- Bytes rendered as a string. -/
def byteStr (bs : List Nat) : String := String.mk (bs.map Char.ofNat)

/-- The null-terminated name starting at `idx` of a string table, as a
string. -/
def strAt (tbl : List Nat) (idx : Nat) : String := byteStr (cstrAt tbl idx)

/-- `ElfT::relocSymName`: extract the symbol index from the encoded info
value per the class-dependent split; if it indexes the symbol table and
that symbol's `st_name` indexes the dynamic string table, return the
null-terminated name there, else the sentinel "N/A".  A pure function of
its arguments. -/
def relocSymName (is32 : Bool) (symbolTable : List Sym) (stringTable : List Nat)
    (rInfo : Nat) : String :=
  if h : relocSymIdx is32 rInfo < symbolTable.length then
    if (symbolTable.get ⟨relocSymIdx is32 rInfo, h⟩).st_name < stringTable.length then
      strAt stringTable (symbolTable.get ⟨relocSymIdx is32 rInfo, h⟩).st_name
    else "N/A"
  else "N/A"

/-- Hexadecimal rendering of a number, as `std::hex` prints it
(lowercase, no prefix, "0" for zero). -/
def hexStr (n : Nat) : String := String.mk (Nat.toDigits 16 n)

/-- One output line of the no-addend loop of `ElfT::dumpRelocs` (line
index `i`, entry `pr` = recorded file offset × relocation): the ELF
offset, the target offset and the info are printed in hex, the symbol
name follows the info with no separator (as in `dumpReloc(RelT)`). -/
def dumpRelLine (is32 : Bool) (st : ElfState) (i : Nat) (pr : Nat × Rel) : String :=
  "  " ++ toString i ++ ") 0x" ++ hexStr pr.1 ++ ", " ++ hexStr pr.2.r_offset
    ++ ", 0x" ++ hexStr pr.2.r_info
    ++ relocSymName is32 st.symbolTable st.stringTable pr.2.r_info

/-- One output line of the with-addend loop of `ElfT::dumpRelocs`
(`dumpReloc(RelaT)` also prints the addend in hex and separates the
symbol name with ", "). -/
def dumpRelaLine (is32 : Bool) (st : ElfState) (i : Nat) (pr : Nat × Rela) : String :=
  "  " ++ toString i ++ ") 0x" ++ hexStr pr.1 ++ ", " ++ hexStr pr.2.r_offset
    ++ ", 0x" ++ hexStr pr.2.r_info ++ ", 0x" ++ hexStr pr.2.r_addend ++ ", "
    ++ relocSymName is32 st.symbolTable st.stringTable pr.2.r_info

/-- The `for_each` over the no-addend sequence, with its running line
counter `i`. -/
def dumpRelList (is32 : Bool) (st : ElfState) : Nat → List (Nat × Rel) → List String
  | _, [] => []
  | i, pr :: rest => dumpRelLine is32 st i pr :: dumpRelList is32 st (i + 1) rest

/-- The `for_each` over the with-addend sequence, with its running line
counter `i`. -/
def dumpRelaList (is32 : Bool) (st : ElfState) : Nat → List (Nat × Rela) → List String
  | _, [] => []
  | i, pr :: rest => dumpRelaLine is32 st i pr :: dumpRelaList is32 st (i + 1) rest

/-- Count header of the no-addend block. -/
def relCountHeader (n : Nat) : String := "Dynamic relocs (" ++ toString n ++ ")"

/-- Column header of the no-addend block. -/
def relColumnHeader : String := "ELFOffset, RelocOffset, RelocInfo, SymName"

/-- Count header of the with-addend block. -/
def relaCountHeader (n : Nat) : String :=
  "Dynamic or PLT relocs with addends (" ++ toString n ++ ")"

/-- Column header of the with-addend block. -/
def relaColumnHeader : String := "ELFOffset, RelocOffset, RelocInfo, RelocAddend, SymName"

/-- `ElfT::dumpRelocs`: the lines printed to stdout, in order.  Each
non-empty sequence contributes a count header, a column header and one
line per entry; an empty sequence contributes nothing. -/
def dumpRelocs (is32 : Bool) (st : ElfState) : List String :=
  (if st.relocs = [] then []
   else relCountHeader st.relocs.length :: relColumnHeader
     :: dumpRelList is32 st 0 st.relocs) ++
  (if st.relocsAddends = [] then []
   else relaCountHeader st.relocsAddends.length :: relaColumnHeader
     :: dumpRelaList is32 st 0 st.relocsAddends)

/-- Default entry used for the (guarded) vector indexing in `swapN`. -/
def defRel : Nat × Rel := (0, { r_offset := 0, r_info := 0 })

/-- Default with-addend entry used for the (guarded) vector indexing in
`swapN`. -/
def defRela : Nat × Rela := (0, { r_offset := 0, r_info := 0, r_addend := 0 })

/-- The no-addend branch of one `swapN` round: copy entries `aIdx` and
`bIdx` into locals, exchange the locals' `r_offset` fields only, and
write local `a` back at entry `aIdx`'s recorded file offset, then local
`b` at entry `bIdx`'s. -/
def swapPairRel (w : Nat) (entries : List (Nat × Rel)) (aIdx bIdx : Nat)
    (out : List Nat) : List Nat :=
  let a := (entries.getD aIdx defRel).2
  let b := (entries.getD bIdx defRel).2
  let a2 : Rel := { a with r_offset := b.r_offset }
  let b2 : Rel := { b with r_offset := a.r_offset }
  let out1 := writeAt out (entries.getD aIdx defRel).1 (encodeRel w a2)
  writeAt out1 (entries.getD bIdx defRel).1 (encodeRel w b2)

/-- The with-addend branch of one `swapN` round: as `swapPairRel`, but
the locals also exchange their `r_addend` fields. -/
def swapPairRela (w : Nat) (entries : List (Nat × Rela)) (aIdx bIdx : Nat)
    (out : List Nat) : List Nat :=
  let a := (entries.getD aIdx defRela).2
  let b := (entries.getD bIdx defRela).2
  let a2 : Rela := { a with r_offset := b.r_offset, r_addend := b.r_addend }
  let b2 : Rela := { b with r_offset := a.r_offset, r_addend := a.r_addend }
  let out1 := writeAt out (entries.getD aIdx defRela).1 (encodeRela w a2)
  writeAt out1 (entries.getD bIdx defRela).1 (encodeRela w b2)

/-- The loop of `ElfT::swapN` over the output file bytes.  `rnd` is the
stream of `rand()` results and `k` the index of the next one: a round
consumes one draw for the sequence choice only when both sequences are
non-empty, then two draws for the indices (`rand() % size`, independent,
with replacement).  If both sequences are empty the whole operation
returns early.  The method is `const`: the model state is threaded
through unchanged and returned alongside the output bytes. -/
def swapNLoop (w : Nat) (st : ElfState) (rnd : Nat → Nat) :
    Nat → Nat → List Nat → ElfState × List Nat
  | 0, _, out => (st, out)
  | n + 1, k, out =>
    if st.relocs ≠ [] ∧ st.relocsAddends ≠ [] then
      if rnd k % 2 = 1 then
        let out2 := swapPairRel w st.relocs (rnd (k + 1) % st.relocs.length)
          (rnd (k + 2) % st.relocs.length) out
        swapNLoop w st rnd n (k + 3) out2
      else
        let out2 := swapPairRela w st.relocsAddends
          (rnd (k + 1) % st.relocsAddends.length)
          (rnd (k + 2) % st.relocsAddends.length) out
        swapNLoop w st rnd n (k + 3) out2
    else if st.relocs ≠ [] then
      let out2 := swapPairRel w st.relocs (rnd k % st.relocs.length)
        (rnd (k + 1) % st.relocs.length) out
      swapNLoop w st rnd n (k + 2) out2
    else if st.relocsAddends ≠ [] then
      let out2 := swapPairRela w st.relocsAddends (rnd k % st.relocsAddends.length)
        (rnd (k + 1) % st.relocsAddends.length) out
      swapNLoop w st rnd n (k + 2) out2
    else
      (st, out)

/-- `ElfT::swapN` with its entry assertion `assert(n > 0 && "Invalid
input.")`: a call with `n = 0` fails the assertion (`none`). -/
def swapN (w : Nat) (st : ElfState) (rnd : Nat → Nat) (n : Nat) (k : Nat)
    (out : List Nat) : Option (ElfState × List Nat) :=
  if 0 < n then some (swapNLoop w st rnd n k out) else none

/-- `main`'s clamping of the `-n` argument: negative counts become 0. -/
def clampSwaps (n : Int) : Int := if n < 0 then 0 else n

/-- `main`'s gate on the mutation step: the output file is created,
filled with a copy of the input and passed to `swapN` only when an
output path was given and the (clamped) swap count is positive. -/
def mutationRuns (outGiven : Bool) (nSwaps : Int) : Bool :=
  outGiven && decide (0 < clampSwaps nSwaps)

/-! ## Concrete fixtures used to exercise the model -/

/-- A 16-byte file: two 32-bit `Rel` entries
`{r_offset = 0x10, r_info = 0x101}` and `{r_offset = 0x20, r_info = 0x202}`. -/
def fixRelFile : List Nat := [16, 0, 0, 0, 1, 1, 0, 0, 32, 0, 0, 0, 2, 2, 0, 0]

/-- A section-name string table holding ".rel.dyn" at index 0. -/
def fixRelSst : List Nat := [46, 114, 101, 108, 46, 100, 121, 110, 0]

/-- Freshly constructed model before parsing `fixRelFile`. -/
def fixRelInit : ElfState := ⟨[], [], [], [], fixRelSst⟩

/-- Header of a `.rel.dyn` section covering all of `fixRelFile`. -/
def fixRelShdr : Shdr := ⟨0, 9, 0, 16, 8⟩

/-- The model after loading `fixRelShdr` from `fixRelFile`. -/
def fixRelParsed : ElfState :=
  ⟨[(0, ⟨16, 257⟩), (8, ⟨32, 514⟩)], [], [], [], fixRelSst⟩

/-- A 4-byte file holding two candidate 2-byte string tables. -/
def fixStrFile : List Nat := [2, 0, 1, 0]

/-- A section-name string table holding ".dynstr" at index 0. -/
def fixStrSst : List Nat := [46, 100, 121, 110, 115, 116, 114, 0]

/-- Freshly constructed model before parsing `fixStrFile`. -/
def fixStrInit : ElfState := ⟨[], [], [], [], fixStrSst⟩

/-- First `.dynstr` section header: 2 bytes at offset 0. -/
def fixStrShdrA : Shdr := ⟨0, 3, 0, 2, 0⟩

/-- Second (duplicate) `.dynstr` section header: 2 bytes at offset 2. -/
def fixStrShdrB : Shdr := ⟨0, 3, 2, 2, 0⟩

/-- A parsed model with two 32-bit no-addend relocations recorded at
file offsets 0 and 8. -/
def fixSwapState : ElfState := ⟨[(0, ⟨1, 7⟩), (8, ⟨2, 7⟩)], [], [], [], []⟩

/-- A `rand()` stream making round one swap entries 0 and 1 and round
two pick entry 0 for both draws. -/
def fixSwapRnd : Nat → Nat := fun k => if k = 1 then 1 else 0

/-- The output file before any round: the exact encoding of
`fixSwapState`'s two entries. -/
def fixSwapOut : List Nat := [1, 0, 0, 0, 7, 0, 0, 0, 2, 0, 0, 0, 7, 0, 0, 0]

/-! ## Byte-level lemmas -/

theorem leEncode_length (w v : Nat) : (leEncode w v).length = w := by
  induction w generalizing v with
  | zero => rfl
  | succ w ih => simp [leEncode, ih]

theorem leDecode_leEncode (w v : Nat) : leDecode (leEncode w v) = v % 256 ^ w := by
  induction w generalizing v with
  | zero => simp [leEncode, leDecode, Nat.mod_one]
  | succ w ih =>
    have hp : (256 : Nat) ^ (w + 1) = 256 * 256 ^ w := by ring
    rw [hp, Nat.mod_mul, leEncode, leDecode, ih]

theorem leDecode_lt (bs : List Nat) (hb : ∀ b ∈ bs, b < 256) :
    leDecode bs < 256 ^ bs.length := by
  induction bs with
  | nil => simp [leDecode]
  | cons b rest ih =>
    have hbb : b < 256 := hb b (by simp)
    have hr : leDecode rest < 256 ^ rest.length := ih (fun x hx => hb x (by simp [hx]))
    have : (256 : Nat) ^ (rest.length + 1) = 256 * 256 ^ rest.length := by ring
    simp only [leDecode, List.length_cons, this]
    omega

theorem leEncode_leDecode (bs : List Nat) (hb : ∀ b ∈ bs, b < 256) :
    leEncode bs.length (leDecode bs) = bs := by
  induction bs with
  | nil => rfl
  | cons b rest ih =>
    have hbb : b < 256 := hb b (by simp)
    have h1 : (b + 256 * leDecode rest) % 256 = b := by
      rw [Nat.add_mul_mod_self_left, Nat.mod_eq_of_lt hbb]
    have h2 : (b + 256 * leDecode rest) / 256 = leDecode rest := by
      rw [Nat.add_mul_div_left _ _ (by norm_num : (0:Nat) < 256),
        Nat.div_eq_of_lt hbb, Nat.zero_add]
    simp only [List.length_cons, leEncode, leDecode, h1, h2]
    rw [ih (fun x hx => hb x (by simp [hx]))]

theorem extract_getElem? (f : List Nat) (p k i : Nat) :
    (extract f p k)[i]? = if i < k then f[p + i]? else none := by
  simp [extract, List.getElem?_take, List.getElem?_drop]

theorem extract_length (f : List Nat) (p k : Nat) (h : p + k ≤ f.length) :
    (extract f p k).length = k := by
  simp only [extract, List.length_take, List.length_drop]
  omega

theorem writeAt_getElem? (f : List Nat) (p : Nat) (bs : List Nat)
    (h : p + bs.length ≤ f.length) (i : Nat) :
    (writeAt f p bs)[i]? =
      if i < p then f[i]? else if i < p + bs.length then bs[i - p]? else f[i]? := by
  have hp : p ≤ f.length := by omega
  have h0 : p - f.length = 0 := Nat.sub_eq_zero_of_le hp
  have htake : (f.take p).length = p := by rw [List.length_take]; omega
  have hw : writeAt f p bs = f.take p ++ (bs ++ f.drop (p + bs.length)) := by
    rw [writeAt, h0]
    simp
  rw [hw, List.getElem?_append, htake]
  by_cases h1 : i < p
  · rw [if_pos h1, if_pos h1, List.getElem?_take, if_pos h1]
  · rw [if_neg h1, if_neg h1, List.getElem?_append]
    by_cases h2 : i < p + bs.length
    · rw [if_pos (show i - p < bs.length by omega), if_pos h2]
    · rw [if_neg (show ¬ i - p < bs.length by omega), if_neg h2, List.getElem?_drop]
      congr 1
      omega

theorem writeAt_length (f : List Nat) (p : Nat) (bs : List Nat)
    (h : p + bs.length ≤ f.length) : (writeAt f p bs).length = f.length := by
  simp only [writeAt, List.length_append, List.length_take, List.length_replicate,
    List.length_drop]
  omega

theorem extract_writeAt_self (f : List Nat) (p : Nat) (bs : List Nat)
    (h : p + bs.length ≤ f.length) : extract (writeAt f p bs) p bs.length = bs := by
  apply List.ext_getElem?
  intro i
  rw [extract_getElem?]
  by_cases hi : i < bs.length
  · rw [if_pos hi, writeAt_getElem? f p bs h, if_neg (by omega), if_pos (by omega)]
    congr 1
    omega
  · rw [if_neg hi, eq_comm]
    exact List.getElem?_eq_none (by omega)

theorem extract_writeAt_disjoint (f : List Nat) (p q k : Nat) (bs : List Nat)
    (h : p + bs.length ≤ f.length) (hd : q + k ≤ p ∨ p + bs.length ≤ q) :
    extract (writeAt f p bs) q k = extract f q k := by
  apply List.ext_getElem?
  intro i
  rw [extract_getElem?, extract_getElem?]
  by_cases hi : i < k
  · rw [if_pos hi, if_pos hi, writeAt_getElem? f p bs h]
    rcases hd with hd | hd
    · rw [if_pos (by omega)]
    · rw [if_neg (by omega), if_neg (by omega)]
  · rw [if_neg hi, if_neg hi]

theorem writeAt_extract_self (f : List Nat) (p k : Nat) (h : p + k ≤ f.length) :
    writeAt f p (extract f p k) = f := by
  have hlen : (extract f p k).length = k := extract_length f p k h
  apply List.ext_getElem?
  intro i
  rw [writeAt_getElem? f p _ (by rw [hlen]; exact h)]
  by_cases h1 : i < p
  · rw [if_pos h1]
  · rw [if_neg h1]
    by_cases h2 : i < p + (extract f p k).length
    · rw [if_pos h2, extract_getElem?, if_pos (by omega)]
      congr 1
      omega
    · rw [if_neg h2]

theorem encodeRel_length (w : Nat) (r : Rel) : (encodeRel w r).length = 2 * w := by
  simp only [encodeRel, List.length_append, leEncode_length]
  omega

theorem encodeRela_length (w : Nat) (r : Rela) : (encodeRela w r).length = 3 * w := by
  simp only [encodeRela, List.length_append, leEncode_length]
  omega

theorem decodeRel_encodeRel (w : Nat) (r : Rel) (ho : r.r_offset < 256 ^ w)
    (hi : r.r_info < 256 ^ w) : decodeRel w (encodeRel w r) = r := by
  have h1 : extract (encodeRel w r) 0 w = leEncode w r.r_offset := by
    simp only [extract, List.drop_zero, encodeRel]
    rw [List.take_append_of_le_length (by rw [leEncode_length]),
      List.take_of_length_le (by rw [leEncode_length])]
  have h2 : extract (encodeRel w r) w w = leEncode w r.r_info := by
    simp only [extract, encodeRel]
    rw [List.drop_append_of_le_length (by rw [leEncode_length]),
      List.drop_of_length_le (by rw [leEncode_length]), List.nil_append,
      List.take_of_length_le (by rw [leEncode_length])]
  simp only [decodeRel, h1, h2, leDecode_leEncode, Nat.mod_eq_of_lt ho, Nat.mod_eq_of_lt hi]

theorem decodeRela_encodeRela (w : Nat) (r : Rela) (ho : r.r_offset < 256 ^ w)
    (hi : r.r_info < 256 ^ w) (ha : r.r_addend < 256 ^ w) :
    decodeRela w (encodeRela w r) = r := by
  have hoff : (leEncode w r.r_offset).length = w := leEncode_length w _
  have hinf : (leEncode w r.r_info).length = w := leEncode_length w _
  have h1 : extract (encodeRela w r) 0 w = leEncode w r.r_offset := by
    simp only [extract, List.drop_zero, encodeRela, List.append_assoc]
    rw [List.take_append_of_le_length (by rw [hoff]),
      List.take_of_length_le (by rw [hoff])]
  have h2 : extract (encodeRela w r) w w = leEncode w r.r_info := by
    simp only [extract, encodeRela, List.append_assoc]
    rw [List.drop_append_of_le_length (by rw [hoff]),
      List.drop_of_length_le (by rw [hoff]), List.nil_append,
      List.take_append_of_le_length (by rw [hinf]),
      List.take_of_length_le (by rw [hinf])]
  have h3 : extract (encodeRela w r) (2 * w) w = leEncode w r.r_addend := by
    have hlen2 : (leEncode w r.r_offset ++ leEncode w r.r_info).length = 2 * w := by
      simp only [List.length_append, hoff, hinf]; omega
    simp only [extract, encodeRela]
    rw [show (leEncode w r.r_offset ++ leEncode w r.r_info ++ leEncode w r.r_addend)
        = (leEncode w r.r_offset ++ leEncode w r.r_info) ++ leEncode w r.r_addend from rfl,
      List.drop_append_of_le_length (by rw [hlen2]),
      List.drop_of_length_le (by rw [hlen2]), List.nil_append,
      List.take_of_length_le (by rw [leEncode_length])]
  simp only [decodeRela, h1, h2, h3, leDecode_leEncode, Nat.mod_eq_of_lt ho,
    Nat.mod_eq_of_lt hi, Nat.mod_eq_of_lt ha]

/-! ## Loop-level lemmas -/

theorem swapNLoop_fst (w : Nat) (st : ElfState) (rnd : Nat → Nat) :
    ∀ (n k : Nat) (out : List Nat), (swapNLoop w st rnd n k out).1 = st := by
  intro n
  induction n with
  | zero => intro k out; rfl
  | succ n ih =>
    intro k out
    rw [swapNLoop]
    split
    · split
      · exact ih _ _
      · exact ih _ _
    · split
      · exact ih _ _
      · split
        · exact ih _ _
        · rfl

theorem swapNLoop_empty (w : Nat) (st : ElfState) (rnd : Nat → Nat)
    (hr : st.relocs = []) (ha : st.relocsAddends = []) (n k : Nat) (out : List Nat) :
    swapNLoop w st rnd n k out = (st, out) := by
  cases n with
  | zero => rfl
  | succ n => simp [swapNLoop, hr, ha]

theorem readRels_spec (f : List Nat) (w : Nat) :
    ∀ (n pos : Nat) (l : List (Nat × Rel)), readRels f w pos n = some l →
      l.length = n ∧
      ∀ i, i < n →
        l.getD i defRel = (pos + i * (2 * w),
          decodeRel w (extract f (pos + i * (2 * w)) (2 * w))) ∧
        pos + i * (2 * w) + 2 * w ≤ f.length := by
  intro n
  induction n with
  | zero =>
    intro pos l h
    rw [readRels] at h
    injection h with h
    subst h
    exact ⟨rfl, fun i hi => absurd hi (Nat.not_lt_zero i)⟩
  | succ n ih =>
    intro pos l h
    rw [readRels] at h
    cases hb : readBytes f pos (2 * w) with
    | none => rw [hb] at h; exact absurd h (by simp)
    | some bs =>
      rw [hb] at h
      cases hr : readRels f w (pos + 2 * w) n with
      | none => rw [hr] at h; exact absurd h (by simp)
      | some rest =>
        rw [hr] at h
        injection h with h
        subst h
        rw [readBytes] at hb
        split at hb
        case isFalse => exact absurd hb (by simp)
        case isTrue hble =>
          injection hb with hb
          subst hb
          obtain ⟨hlen, hspec⟩ := ih (pos + 2 * w) rest hr
          refine ⟨by simp [hlen], ?_⟩
          intro i hi
          cases i with
          | zero => simpa using hble
          | succ i =>
            have harith : pos + 2 * w + i * (2 * w) = pos + (i + 1) * (2 * w) := by ring
            have := hspec i (by omega)
            rw [harith] at this
            simpa using this

theorem readRelas_spec (f : List Nat) (w : Nat) :
    ∀ (n pos : Nat) (l : List (Nat × Rela)), readRelas f w pos n = some l →
      l.length = n ∧
      ∀ i, i < n →
        l.getD i defRela = (pos + i * (3 * w),
          decodeRela w (extract f (pos + i * (3 * w)) (3 * w))) ∧
        pos + i * (3 * w) + 3 * w ≤ f.length := by
  intro n
  induction n with
  | zero =>
    intro pos l h
    rw [readRelas] at h
    injection h with h
    subst h
    exact ⟨rfl, fun i hi => absurd hi (Nat.not_lt_zero i)⟩
  | succ n ih =>
    intro pos l h
    rw [readRelas] at h
    cases hb : readBytes f pos (3 * w) with
    | none => rw [hb] at h; exact absurd h (by simp)
    | some bs =>
      rw [hb] at h
      cases hr : readRelas f w (pos + 3 * w) n with
      | none => rw [hr] at h; exact absurd h (by simp)
      | some rest =>
        rw [hr] at h
        injection h with h
        subst h
        rw [readBytes] at hb
        split at hb
        case isFalse => exact absurd hb (by simp)
        case isTrue hble =>
          injection hb with hb
          subst hb
          obtain ⟨hlen, hspec⟩ := ih (pos + 3 * w) rest hr
          refine ⟨by simp [hlen], ?_⟩
          intro i hi
          cases i with
          | zero => simpa using hble
          | succ i =>
            have harith : pos + 3 * w + i * (3 * w) = pos + (i + 1) * (3 * w) := by ring
            have := hspec i (by omega)
            rw [harith] at this
            simpa using this

theorem dumpRelList_eq_map (is32 : Bool) (st : ElfState) :
    ∀ (l : List (Nat × Rel)) (i : Nat),
      dumpRelList is32 st i l =
        (List.range l.length).map (fun j => dumpRelLine is32 st (i + j) (l.getD j defRel)) := by
  intro l
  induction l with
  | nil => intro i; rfl
  | cons pr rest ih =>
    intro i
    rw [dumpRelList, ih (i + 1), List.length_cons, List.range_succ_eq_map, List.map_cons,
      List.map_map]
    congr 1
    apply List.map_congr_left
    intro j _
    simp only [Function.comp_apply, List.getD_cons_succ]
    have harith : i + 1 + j = i + (j + 1) := by omega
    rw [harith]

theorem dumpRelaList_eq_map (is32 : Bool) (st : ElfState) :
    ∀ (l : List (Nat × Rela)) (i : Nat),
      dumpRelaList is32 st i l =
        (List.range l.length).map (fun j => dumpRelaLine is32 st (i + j) (l.getD j defRela)) := by
  intro l
  induction l with
  | nil => intro i; rfl
  | cons pr rest ih =>
    intro i
    rw [dumpRelaList, ih (i + 1), List.length_cons, List.range_succ_eq_map, List.map_cons,
      List.map_map]
    congr 1
    apply List.map_congr_left
    intro j _
    simp only [Function.comp_apply, List.getD_cons_succ]
    have harith : i + 1 + j = i + (j + 1) := by omega
    rw [harith]

theorem dumpRelocs_head (is32 : Bool) (st : ElfState) (h : st.relocs ≠ []) :
    (dumpRelocs is32 st).head? = some (relCountHeader st.relocs.length) := by
  rw [dumpRelocs, if_neg h]
  rfl

theorem dumpRelocs_head_rela (is32 : Bool) (st : ElfState) (h0 : st.relocs = [])
    (h : st.relocsAddends ≠ []) :
    (dumpRelocs is32 st).head? = some (relaCountHeader st.relocsAddends.length) := by
  rw [dumpRelocs, if_pos h0, if_neg h]
  rfl

/-! ## Claim theorems -/

/-- C4: for every encoded relocation info value, symbol-name resolution
extracts the symbol index by the class-dependent bit split (low 8 bits
are the type for the 32-bit entry width, low 32 bits for the 64-bit
one, chosen by the entry width of the parsed model); an in-bounds index
whose symbol has an in-bounds name index yields the null-terminated
name from the dynamic string table; an index beyond the symbol table
yields the sentinel "N/A"; and in every case the function either
returns the sentinel or reads a name starting inside the string table
(no out-of-bounds access).  The model function is pure, so repeated
calls agree by construction. -/
theorem relocSymName_contract (is32 : Bool) (symbolTable : List Sym)
    (stringTable : List Nat) (rInfo : Nat) :
    (relocSymIdx is32 rInfo = if is32 then rInfo / 2 ^ 8 else rInfo / 2 ^ 32) ∧
    (∀ h : relocSymIdx is32 rInfo < symbolTable.length,
      (symbolTable.get ⟨relocSymIdx is32 rInfo, h⟩).st_name < stringTable.length →
      relocSymName is32 symbolTable stringTable rInfo
        = strAt stringTable (symbolTable.get ⟨relocSymIdx is32 rInfo, h⟩).st_name) ∧
    (symbolTable.length ≤ relocSymIdx is32 rInfo →
      relocSymName is32 symbolTable stringTable rInfo = "N/A") ∧
    (relocSymName is32 symbolTable stringTable rInfo = "N/A" ∨
      ∃ h : relocSymIdx is32 rInfo < symbolTable.length,
        (symbolTable.get ⟨relocSymIdx is32 rInfo, h⟩).st_name < stringTable.length ∧
        relocSymName is32 symbolTable stringTable rInfo
          = strAt stringTable (symbolTable.get ⟨relocSymIdx is32 rInfo, h⟩).st_name) := by
  refine ⟨?_, ?_, ?_, ?_⟩
  · cases is32 <;>
      simp [relocSymIdx, relTWidth, wordSize, elf32RelWidth, elf32RSym, elf64RSym,
        Nat.shiftRight_eq_div_pow]
  · intro h hlt
    rw [relocSymName, dif_pos h, if_pos hlt]
  · intro hge
    rw [relocSymName, dif_neg (by omega)]
  · by_cases h : relocSymIdx is32 rInfo < symbolTable.length
    · by_cases hlt : (symbolTable.get ⟨relocSymIdx is32 rInfo, h⟩).st_name < stringTable.length
      · exact Or.inr ⟨h, hlt, by rw [relocSymName, dif_pos h, if_pos hlt]⟩
      · exact Or.inl (by rw [relocSymName, dif_pos h, if_neg hlt])
    · exact Or.inl (by rw [relocSymName, dif_neg h])

/-- Witness for C4: on a one-symbol table whose name points at "foo",
resolution returns "foo"; on an empty symbol table it returns "N/A". -/
theorem relocSymName_contract_witness :
    relocSymName true [⟨0⟩] [102, 111, 111, 0] 0 = "foo" ∧
    relocSymName true [] [102, 111, 111, 0] 0 = "N/A" :=
  ⟨((relocSymName_contract true [⟨0⟩] [102, 111, 111, 0] 0).2.1 (by decide)
      (by decide)).trans (by decide),
   (relocSymName_contract true [] [102, 111, 111, 0] 0).2.2.1 (by decide)⟩

/-- C10: if the symbol index is within the symbol table but the
symbol's own `st_name` is at or beyond the end of the dynamic string
table, resolution returns the sentinel "N/A" rather than reading past
the table's end. -/
theorem relocSymName_stname_bound (is32 : Bool) (symbolTable : List Sym)
    (stringTable : List Nat) (rInfo : Nat)
    (h : relocSymIdx is32 rInfo < symbolTable.length)
    (hname : stringTable.length ≤ (symbolTable.get ⟨relocSymIdx is32 rInfo, h⟩).st_name) :
    relocSymName is32 symbolTable stringTable rInfo = "N/A" := by
  rw [relocSymName, dif_pos h, if_neg (by omega)]

/-- Witness for C10: a symbol whose name index 5 exceeds the 4-byte
string table resolves to "N/A". -/
theorem relocSymName_stname_bound_witness :
    relocSymName true [⟨5⟩] [102, 111, 111, 0] 0 = "N/A" :=
  relocSymName_stname_bound true [⟨5⟩] [102, 111, 111, 0] 0 (by decide) (by decide)

/-- C5: the shuffle never mutates the in-memory model: for every swap
count, random stream and output file, the model (both relocation
sequences with their recorded offsets, the symbol table and both string
tables) threaded through the swap loop comes back unchanged, and
`swapN` (for accepted counts) returns exactly the unchanged model next
to the rewritten output bytes — all side effects are confined to the
output stream. -/
theorem swapN_preserves_model (w : Nat) (st : ElfState) (rnd : Nat → Nat) (n k : Nat)
    (out : List Nat) :
    (swapNLoop w st rnd n k out).1 = st ∧
    (0 < n → swapN w st rnd n k out = some (st, (swapNLoop w st rnd n k out).2)) := by
  refine ⟨swapNLoop_fst w st rnd n k out, ?_⟩
  intro hn
  rw [swapN, if_pos hn]
  conv_lhs => rw [show swapNLoop w st rnd n k out
    = ((swapNLoop w st rnd n k out).1, (swapNLoop w st rnd n k out).2) from rfl,
    swapNLoop_fst w st rnd n k out]

/-- Witness for C5 at a concrete two-entry model, one accepted round. -/
theorem swapN_preserves_model_witness :
    (swapNLoop 4 fixSwapState fixSwapRnd 1 0 fixSwapOut).1 = fixSwapState ∧
    swapN 4 fixSwapState fixSwapRnd 1 0 fixSwapOut
      = some (fixSwapState, (swapNLoop 4 fixSwapState fixSwapRnd 1 0 fixSwapOut).2) :=
  ⟨(swapN_preserves_model 4 fixSwapState fixSwapRnd 1 0 fixSwapOut).1,
   (swapN_preserves_model 4 fixSwapState fixSwapRnd 1 0 fixSwapOut).2 (by decide)⟩

/-- C6: if both relocation sequences are empty, the shuffle with any
requested count N ≥ 1 is accepted, stops early without error, performs
no write, and leaves the output bytes (and the model) unchanged. -/
theorem swapN_empty_noop (w : Nat) (st : ElfState) (rnd : Nat → Nat) (n k : Nat)
    (out : List Nat) (hr : st.relocs = []) (ha : st.relocsAddends = [])
    (hn : 0 < n) :
    swapN w st rnd n k out = some (st, out) := by
  rw [swapN, if_pos hn, swapNLoop_empty w st rnd hr ha n k out]

/-- Witness for C6: an empty model and swap count 1 return the output
file untouched. -/
theorem swapN_empty_noop_witness :
    swapN 4 ⟨[], [], [], [], []⟩ (fun _ => 0) 1 0 [3, 4] = some (⟨[], [], [], [], []⟩, [3, 4]) :=
  swapN_empty_noop 4 ⟨[], [], [], [], []⟩ (fun _ => 0) 1 0 [3, 4] rfl rfl (by decide)

/-- C7 counterexample: the shuffle operation does not admit N = 0 — its
entry assertion `assert(n > 0 && "Invalid input.")` rejects a swap
count of zero (modelled as `none`), contradicting the claim that its
contract admits N ≥ 0. -/
theorem swapN_zero_rejected_cex :
    swapN 4 ⟨[], [], [], [], []⟩ (fun _ => 0) 0 0 [] = none := by decide

/-- C7 amended: `swapN` asserts N > 0, so N = 0 is rejected rather than
accepted; the driver never reaches it with N = 0 — with swap count 0 the
mutation step is skipped entirely, so no output file is even created,
and the swap loop itself, were the assertion ignored, performs no
rounds and leaves both the model and the output bytes unchanged. -/
theorem swapN_zero_behavior (w : Nat) (st : ElfState) (rnd : Nat → Nat) (k : Nat)
    (out : List Nat) :
    swapN w st rnd 0 k out = none ∧
    swapNLoop w st rnd 0 k out = (st, out) ∧
    mutationRuns true 0 = false ∧
    mutationRuns false 0 = false := by
  refine ⟨by rw [swapN, if_neg (by omega)], rfl, by decide, by decide⟩

/-- C9: the dump renders, in order, the no-addend block followed by the
with-addend block; each non-empty block is its count header (stating
the sequence's entry count), the column header, then exactly one line
per entry in sequence order (line `i` shows entry `i`'s recorded ELF
offset, target offset, encoded info — and addend in the with-addend
block — in hexadecimal plus the resolved symbol name); an empty
sequence contributes nothing at all. -/
theorem dumpRelocs_structure (is32 : Bool) (st : ElfState) :
    dumpRelocs is32 st =
      (if st.relocs = [] then []
       else relCountHeader st.relocs.length :: relColumnHeader ::
         (List.range st.relocs.length).map
           (fun i => dumpRelLine is32 st i (st.relocs.getD i defRel))) ++
      (if st.relocsAddends = [] then []
       else relaCountHeader st.relocsAddends.length :: relaColumnHeader ::
         (List.range st.relocsAddends.length).map
           (fun i => dumpRelaLine is32 st i (st.relocsAddends.getD i defRela))) := by
  rw [dumpRelocs, dumpRelList_eq_map, dumpRelaList_eq_map]
  simp only [Nat.zero_add]

/-- C8 counterexample: a round that picks the same index for both
entries does NOT always leave the output file byte-identical to its
state before the round.  Concretely: round one swaps entries 0 and 1 on
disk; round two draws index 0 twice, and — because the in-memory model
still holds the parsed values — writes entry 0's original contents back,
changing the file (it reverts round one's write at that entry). -/
theorem swapRound_same_index_cex :
    fixSwapRnd 2 % 2 = fixSwapRnd 3 % 2 ∧
    (swapNLoop 4 fixSwapState fixSwapRnd 2 0 fixSwapOut).2
      ≠ (swapNLoop 4 fixSwapState fixSwapRnd 1 0 fixSwapOut).2 := by decide

/-- C8 amended: a round that picks the same index twice rewrites that
entry with its originally parsed field values at its recorded offset;
whenever the output bytes at that offset still hold the entry's encoded
parsed contents (in particular in the first round over the fresh copy
of the input), the round leaves the output file byte-identical — a
tolerated degenerate case, not an error.  (Otherwise it reverts that
entry to its parsed contents, as the counterexample shows.) -/
theorem swapPair_same_index_noop (w : Nat) :
    (∀ (entries : List (Nat × Rel)) (i : Nat) (out : List Nat),
      (entries.getD i defRel).1 + 2 * w ≤ out.length →
      extract out (entries.getD i defRel).1 (2 * w) = encodeRel w (entries.getD i defRel).2 →
      swapPairRel w entries i i out = out) ∧
    (∀ (entries : List (Nat × Rela)) (i : Nat) (out : List Nat),
      (entries.getD i defRela).1 + 3 * w ≤ out.length →
      extract out (entries.getD i defRela).1 (3 * w) = encodeRela w (entries.getD i defRela).2 →
      swapPairRela w entries i i out = out) := by
  constructor
  · intro entries i out hb hbytes
    show writeAt (writeAt out (entries.getD i defRel).1 (encodeRel w (entries.getD i defRel).2))
        (entries.getD i defRel).1 (encodeRel w (entries.getD i defRel).2) = out
    have h1 : writeAt out (entries.getD i defRel).1 (encodeRel w (entries.getD i defRel).2)
        = out := by
      rw [← hbytes]
      exact writeAt_extract_self out _ _ hb
    rw [h1, ← hbytes]
    exact writeAt_extract_self out _ _ hb
  · intro entries i out hb hbytes
    show writeAt (writeAt out (entries.getD i defRela).1 (encodeRela w (entries.getD i defRela).2))
        (entries.getD i defRela).1 (encodeRela w (entries.getD i defRela).2) = out
    have h1 : writeAt out (entries.getD i defRela).1 (encodeRela w (entries.getD i defRela).2)
        = out := by
      rw [← hbytes]
      exact writeAt_extract_self out _ _ hb
    rw [h1, ← hbytes]
    exact writeAt_extract_self out _ _ hb

/-- Witness for the amended C8: on the fresh copy, a same-index round
over either record shape leaves the file bytes unchanged. -/
theorem swapPair_same_index_noop_witness :
    swapPairRel 4 [(0, ⟨1, 7⟩)] 0 0 [1, 0, 0, 0, 7, 0, 0, 0] = [1, 0, 0, 0, 7, 0, 0, 0] ∧
    swapPairRela 4 [(0, ⟨1, 2, 3⟩)] 0 0 [1, 0, 0, 0, 2, 0, 0, 0, 3, 0, 0, 0]
      = [1, 0, 0, 0, 2, 0, 0, 0, 3, 0, 0, 0] :=
  ⟨(swapPair_same_index_noop 4).1 [(0, ⟨1, 7⟩)] 0 [1, 0, 0, 0, 7, 0, 0, 0]
      (by decide) (by decide),
   (swapPair_same_index_noop 4).2 [(0, ⟨1, 2, 3⟩)] 0 [1, 0, 0, 0, 2, 0, 0, 0, 3, 0, 0, 0]
      (by decide) (by decide)⟩

/-- C1: in a shuffle round over two distinct entries `a ≠ b` of one
sequence (whose recorded regions lie inside the file and do not
overlap, as parsing guarantees for in-bounds sections), the bytes
written back at the two recorded offsets decode so that each entry's
encoded-info field keeps its original value while the target-offset
fields (and, for addend entries, the addend fields) are exactly
exchanged; the sum of the two target-offset values is invariant, and
the total file size is unchanged.  Stated for both record shapes, the
two branches of a round. -/
theorem swapPair_exchange (is32 : Bool) :
    (∀ (entries : List (Nat × Rel)) (aIdx bIdx : Nat) (out : List Nat)
        (offA offB : Nat) (a b : Rel),
      entries.getD aIdx defRel = (offA, a) →
      entries.getD bIdx defRel = (offB, b) →
      aIdx ≠ bIdx →
      offA + relTWidth is32 ≤ out.length →
      offB + relTWidth is32 ≤ out.length →
      (offA + relTWidth is32 ≤ offB ∨ offB + relTWidth is32 ≤ offA) →
      a.r_offset < 256 ^ wordSize is32 → a.r_info < 256 ^ wordSize is32 →
      b.r_offset < 256 ^ wordSize is32 → b.r_info < 256 ^ wordSize is32 →
      (swapPairRel (wordSize is32) entries aIdx bIdx out).length = out.length ∧
      decodeRel (wordSize is32)
          (extract (swapPairRel (wordSize is32) entries aIdx bIdx out) offA (relTWidth is32))
        = { r_offset := b.r_offset, r_info := a.r_info } ∧
      decodeRel (wordSize is32)
          (extract (swapPairRel (wordSize is32) entries aIdx bIdx out) offB (relTWidth is32))
        = { r_offset := a.r_offset, r_info := b.r_info } ∧
      (decodeRel (wordSize is32)
          (extract (swapPairRel (wordSize is32) entries aIdx bIdx out) offA
            (relTWidth is32))).r_offset
        + (decodeRel (wordSize is32)
            (extract (swapPairRel (wordSize is32) entries aIdx bIdx out) offB
              (relTWidth is32))).r_offset
        = a.r_offset + b.r_offset) ∧
    (∀ (entries : List (Nat × Rela)) (aIdx bIdx : Nat) (out : List Nat)
        (offA offB : Nat) (a b : Rela),
      entries.getD aIdx defRela = (offA, a) →
      entries.getD bIdx defRela = (offB, b) →
      aIdx ≠ bIdx →
      offA + relaTWidth is32 ≤ out.length →
      offB + relaTWidth is32 ≤ out.length →
      (offA + relaTWidth is32 ≤ offB ∨ offB + relaTWidth is32 ≤ offA) →
      a.r_offset < 256 ^ wordSize is32 → a.r_info < 256 ^ wordSize is32 →
      a.r_addend < 256 ^ wordSize is32 →
      b.r_offset < 256 ^ wordSize is32 → b.r_info < 256 ^ wordSize is32 →
      b.r_addend < 256 ^ wordSize is32 →
      (swapPairRela (wordSize is32) entries aIdx bIdx out).length = out.length ∧
      decodeRela (wordSize is32)
          (extract (swapPairRela (wordSize is32) entries aIdx bIdx out) offA (relaTWidth is32))
        = { r_offset := b.r_offset, r_info := a.r_info, r_addend := b.r_addend } ∧
      decodeRela (wordSize is32)
          (extract (swapPairRela (wordSize is32) entries aIdx bIdx out) offB (relaTWidth is32))
        = { r_offset := a.r_offset, r_info := b.r_info, r_addend := a.r_addend } ∧
      (decodeRela (wordSize is32)
          (extract (swapPairRela (wordSize is32) entries aIdx bIdx out) offA
            (relaTWidth is32))).r_offset
        + (decodeRela (wordSize is32)
            (extract (swapPairRela (wordSize is32) entries aIdx bIdx out) offB
              (relaTWidth is32))).r_offset
        = a.r_offset + b.r_offset) := by
  constructor
  · intro entries aIdx bIdx out offA offB a b hA hB _ hbA hbB hd ho1 hi1 ho2 hi2
    have hwt : relTWidth is32 = 2 * wordSize is32 := rfl
    rw [hwt] at hbA hbB hd
    have hbody : swapPairRel (wordSize is32) entries aIdx bIdx out
        = writeAt (writeAt out offA (encodeRel (wordSize is32) ⟨b.r_offset, a.r_info⟩))
            offB (encodeRel (wordSize is32) ⟨a.r_offset, b.r_info⟩) := by
      rw [swapPairRel, hA, hB]
    have h1len : (encodeRel (wordSize is32) (⟨b.r_offset, a.r_info⟩ : Rel)).length
        = 2 * wordSize is32 := encodeRel_length _ _
    have h2len : (encodeRel (wordSize is32) (⟨a.r_offset, b.r_info⟩ : Rel)).length
        = 2 * wordSize is32 := encodeRel_length _ _
    have hinlen : (writeAt out offA (encodeRel (wordSize is32)
        (⟨b.r_offset, a.r_info⟩ : Rel))).length = out.length :=
      writeAt_length _ _ _ (by rw [h1len]; omega)
    have houtlen : (swapPairRel (wordSize is32) entries aIdx bIdx out).length = out.length := by
      rw [hbody, writeAt_length _ _ _ (by rw [h2len, hinlen]; omega), hinlen]
    have hB2 : extract (swapPairRel (wordSize is32) entries aIdx bIdx out) offB
        (relTWidth is32) = encodeRel (wordSize is32) ⟨a.r_offset, b.r_info⟩ := by
      rw [hbody, hwt]
      have := extract_writeAt_self
        (writeAt out offA (encodeRel (wordSize is32) ⟨b.r_offset, a.r_info⟩)) offB
        (encodeRel (wordSize is32) ⟨a.r_offset, b.r_info⟩) (by rw [h2len, hinlen]; omega)
      rw [h2len] at this
      exact this
    have hA2 : extract (swapPairRel (wordSize is32) entries aIdx bIdx out) offA
        (relTWidth is32) = encodeRel (wordSize is32) ⟨b.r_offset, a.r_info⟩ := by
      rw [hbody, hwt]
      rw [extract_writeAt_disjoint _ offB offA (2 * wordSize is32) _
        (by rw [h2len, hinlen]; omega) (by rw [h2len]; omega)]
      have := extract_writeAt_self out offA
        (encodeRel (wordSize is32) ⟨b.r_offset, a.r_info⟩) (by rw [h1len]; omega)
      rw [h1len] at this
      exact this
    have hdecA : decodeRel (wordSize is32)
        (extract (swapPairRel (wordSize is32) entries aIdx bIdx out) offA (relTWidth is32))
        = { r_offset := b.r_offset, r_info := a.r_info } := by
      rw [hA2]
      exact decodeRel_encodeRel _ _ ho2 hi1
    have hdecB : decodeRel (wordSize is32)
        (extract (swapPairRel (wordSize is32) entries aIdx bIdx out) offB (relTWidth is32))
        = { r_offset := a.r_offset, r_info := b.r_info } := by
      rw [hB2]
      exact decodeRel_encodeRel _ _ ho1 hi2
    refine ⟨houtlen, hdecA, hdecB, ?_⟩
    rw [hdecA, hdecB]
    exact Nat.add_comm _ _
  · intro entries aIdx bIdx out offA offB a b hA hB _ hbA hbB hd ho1 hi1 ha1 ho2 hi2 ha2
    have hwt : relaTWidth is32 = 3 * wordSize is32 := rfl
    rw [hwt] at hbA hbB hd
    have hbody : swapPairRela (wordSize is32) entries aIdx bIdx out
        = writeAt (writeAt out offA
            (encodeRela (wordSize is32) ⟨b.r_offset, a.r_info, b.r_addend⟩))
            offB (encodeRela (wordSize is32) ⟨a.r_offset, b.r_info, a.r_addend⟩) := by
      rw [swapPairRela, hA, hB]
    have h1len : (encodeRela (wordSize is32)
        (⟨b.r_offset, a.r_info, b.r_addend⟩ : Rela)).length = 3 * wordSize is32 :=
      encodeRela_length _ _
    have h2len : (encodeRela (wordSize is32)
        (⟨a.r_offset, b.r_info, a.r_addend⟩ : Rela)).length = 3 * wordSize is32 :=
      encodeRela_length _ _
    have hinlen : (writeAt out offA (encodeRela (wordSize is32)
        (⟨b.r_offset, a.r_info, b.r_addend⟩ : Rela))).length = out.length :=
      writeAt_length _ _ _ (by rw [h1len]; omega)
    have houtlen : (swapPairRela (wordSize is32) entries aIdx bIdx out).length
        = out.length := by
      rw [hbody, writeAt_length _ _ _ (by rw [h2len, hinlen]; omega), hinlen]
    have hB2 : extract (swapPairRela (wordSize is32) entries aIdx bIdx out) offB
        (relaTWidth is32) = encodeRela (wordSize is32) ⟨a.r_offset, b.r_info, a.r_addend⟩ := by
      rw [hbody, hwt]
      have := extract_writeAt_self
        (writeAt out offA (encodeRela (wordSize is32) ⟨b.r_offset, a.r_info, b.r_addend⟩)) offB
        (encodeRela (wordSize is32) ⟨a.r_offset, b.r_info, a.r_addend⟩)
        (by rw [h2len, hinlen]; omega)
      rw [h2len] at this
      exact this
    have hA2 : extract (swapPairRela (wordSize is32) entries aIdx bIdx out) offA
        (relaTWidth is32) = encodeRela (wordSize is32) ⟨b.r_offset, a.r_info, b.r_addend⟩ := by
      rw [hbody, hwt]
      rw [extract_writeAt_disjoint _ offB offA (3 * wordSize is32) _
        (by rw [h2len, hinlen]; omega) (by rw [h2len]; omega)]
      have := extract_writeAt_self out offA
        (encodeRela (wordSize is32) ⟨b.r_offset, a.r_info, b.r_addend⟩) (by rw [h1len]; omega)
      rw [h1len] at this
      exact this
    have hdecA : decodeRela (wordSize is32)
        (extract (swapPairRela (wordSize is32) entries aIdx bIdx out) offA (relaTWidth is32))
        = { r_offset := b.r_offset, r_info := a.r_info, r_addend := b.r_addend } := by
      rw [hA2]
      exact decodeRela_encodeRela _ _ ho2 hi1 ha2
    have hdecB : decodeRela (wordSize is32)
        (extract (swapPairRela (wordSize is32) entries aIdx bIdx out) offB (relaTWidth is32))
        = { r_offset := a.r_offset, r_info := b.r_info, r_addend := a.r_addend } := by
      rw [hB2]
      exact decodeRela_encodeRela _ _ ho1 hi2 ha1
    refine ⟨houtlen, hdecA, hdecB, ?_⟩
    rw [hdecA, hdecB]
    exact Nat.add_comm _ _

/-- Witness for C1: a concrete 32-bit round over each record shape, on
the two-entry fixtures; reading the file back at the recorded offsets
shows offsets (and addends) exchanged and infos kept. -/
theorem swapPair_exchange_witness :
    decodeRel 4 (extract (swapPairRel 4 [(0, ⟨16, 257⟩), (8, ⟨32, 514⟩)] 0 1 fixRelFile) 0 8)
      = { r_offset := 32, r_info := 257 } ∧
    decodeRel 4 (extract (swapPairRel 4 [(0, ⟨16, 257⟩), (8, ⟨32, 514⟩)] 0 1 fixRelFile) 8 8)
      = { r_offset := 16, r_info := 514 } ∧
    (swapPairRel 4 [(0, ⟨16, 257⟩), (8, ⟨32, 514⟩)] 0 1 fixRelFile).length
      = fixRelFile.length ∧
    decodeRela 4 (extract (swapPairRela 4 [(0, ⟨1, 2, 3⟩), (12, ⟨4, 5, 6⟩)] 0 1
        [1, 0, 0, 0, 2, 0, 0, 0, 3, 0, 0, 0, 4, 0, 0, 0, 5, 0, 0, 0, 6, 0, 0, 0]) 0 12)
      = { r_offset := 4, r_info := 2, r_addend := 6 } := by
  have h1 := (swapPair_exchange true).1 [(0, ⟨16, 257⟩), (8, ⟨32, 514⟩)] 0 1 fixRelFile
    0 8 ⟨16, 257⟩ ⟨32, 514⟩ (by decide) (by decide) (by decide) (by decide) (by decide)
    (by decide) (by decide) (by decide) (by decide) (by decide)
  have h2 := (swapPair_exchange true).2 [(0, ⟨1, 2, 3⟩), (12, ⟨4, 5, 6⟩)] 0 1
    [1, 0, 0, 0, 2, 0, 0, 0, 3, 0, 0, 0, 4, 0, 0, 0, 5, 0, 0, 0, 6, 0, 0, 0]
    0 12 ⟨1, 2, 3⟩ ⟨4, 5, 6⟩ (by decide) (by decide) (by decide) (by decide) (by decide)
    (by decide) (by decide) (by decide) (by decide) (by decide) (by decide) (by decide)
  exact ⟨h1.2.1, h1.2.2.1, h1.1, h2.2.1⟩

/-- C2: for a relocation section handed to the loader (recognized
dispatch shown as the first conjunct), parsing decodes exactly
`sh_size / sh_entsize` entries, appends them in on-disk order to the
matching sequence (leaving the other sequence and the tables untouched),
records with the i-th entry the absolute file offset
`sh_offset + i * width` of the first byte of that exact entry (each
such entry lying wholly inside the file), and the count a non-empty
dump reports in its header equals that same `sh_size / sh_entsize`. -/
theorem addRels_decodes_all (is32 : Bool) (f : List Nat) (st : ElfState) (sh : Shdr)
    (st' : ElfState) (hadd : addRels f (wordSize is32) st sh = some st') :
    ((sh.sh_type = SHT_REL ∨ sh.sh_type = SHT_RELA) →
      (isSection st.sectionStringTable sh.sh_name relDynName
        ∨ isSection st.sectionStringTable sh.sh_name relaDynName
        ∨ isSection st.sectionStringTable sh.sh_name relaPltName) →
      processSection f (wordSize is32) st sh = addRels f (wordSize is32) st sh) ∧
    (sh.sh_type = SHT_REL →
      st'.relocsAddends = st.relocsAddends ∧ st'.symbolTable = st.symbolTable ∧
      st'.stringTable = st.stringTable ∧
      ∃ l, st'.relocs = st.relocs ++ l ∧ l.length = sh.sh_size / sh.sh_entsize ∧
        ∀ i, i < l.length →
          (l.getD i defRel).1 = sh.sh_offset + i * relTWidth is32 ∧
          (l.getD i defRel).2 = decodeRel (wordSize is32)
            (extract f (sh.sh_offset + i * relTWidth is32) (relTWidth is32)) ∧
          (l.getD i defRel).1 + relTWidth is32 ≤ f.length) ∧
    (sh.sh_type = SHT_RELA →
      st'.relocs = st.relocs ∧ st'.symbolTable = st.symbolTable ∧
      st'.stringTable = st.stringTable ∧
      ∃ l, st'.relocsAddends = st.relocsAddends ++ l ∧
        l.length = sh.sh_size / sh.sh_entsize ∧
        ∀ i, i < l.length →
          (l.getD i defRela).1 = sh.sh_offset + i * relaTWidth is32 ∧
          (l.getD i defRela).2 = decodeRela (wordSize is32)
            (extract f (sh.sh_offset + i * relaTWidth is32) (relaTWidth is32)) ∧
          (l.getD i defRela).1 + relaTWidth is32 ≤ f.length) ∧
    (sh.sh_type = SHT_REL → st.relocs = [] → 0 < sh.sh_size / sh.sh_entsize →
      (dumpRelocs is32 st').head? = some (relCountHeader (sh.sh_size / sh.sh_entsize))) ∧
    (sh.sh_type = SHT_RELA → st.relocs = [] → st.relocsAddends = [] →
      0 < sh.sh_size / sh.sh_entsize →
      (dumpRelocs is32 st').head? = some (relaCountHeader (sh.sh_size / sh.sh_entsize))) := by
  rw [addRels] at hadd
  by_cases hty : sh.sh_type = SHT_REL
  · rw [if_pos hty] at hadd
    cases hr : readRels f (wordSize is32) sh.sh_offset (sh.sh_size / sh.sh_entsize) with
    | none => rw [hr] at hadd; exact absurd hadd (by simp)
    | some l =>
      rw [hr] at hadd
      injection hadd with hadd
      subst hadd
      obtain ⟨hlen, hspec⟩ :=
        readRels_spec f (wordSize is32) (sh.sh_size / sh.sh_entsize) sh.sh_offset l hr
      refine ⟨?_, ?_, ?_, ?_, ?_⟩
      · intro hty2 hname
        rw [processSection, if_pos ⟨hty2, hname⟩]
      · intro _
        refine ⟨rfl, rfl, rfl, l, rfl, hlen, ?_⟩
        intro i hi
        obtain ⟨hg, hb⟩ := hspec i (by omega)
        have hwt : relTWidth is32 = 2 * wordSize is32 := rfl
        exact ⟨by rw [hg, hwt], by rw [hg, hwt], by rw [hg]; exact hb⟩
      · intro hty2
        rw [hty] at hty2
        exact absurd hty2 (by decide)
      · intro _ hrel hc
        have hlne : l ≠ [] := by
          intro hnil
          rw [hnil] at hlen
          simp at hlen
          omega
        have hne : ({ st with relocs := st.relocs ++ l } : ElfState).relocs ≠ [] := by
          simp only [hrel, List.nil_append]
          exact hlne
        rw [dumpRelocs_head is32 _ hne]
        simp only [hrel, List.nil_append, hlen]
      · intro hty2
        rw [hty] at hty2
        exact absurd hty2 (by decide)
  · rw [if_neg hty] at hadd
    cases hr : readRelas f (wordSize is32) sh.sh_offset (sh.sh_size / sh.sh_entsize) with
    | none => rw [hr] at hadd; exact absurd hadd (by simp)
    | some l =>
      rw [hr] at hadd
      injection hadd with hadd
      subst hadd
      obtain ⟨hlen, hspec⟩ :=
        readRelas_spec f (wordSize is32) (sh.sh_size / sh.sh_entsize) sh.sh_offset l hr
      refine ⟨?_, ?_, ?_, ?_, ?_⟩
      · intro hty2 hname
        rw [processSection, if_pos ⟨hty2, hname⟩]
      · intro hty2
        exact absurd hty2 hty
      · intro _
        refine ⟨rfl, rfl, rfl, l, rfl, hlen, ?_⟩
        intro i hi
        obtain ⟨hg, hb⟩ := hspec i (by omega)
        have hwt : relaTWidth is32 = 3 * wordSize is32 := rfl
        exact ⟨by rw [hg, hwt], by rw [hg, hwt], by rw [hg]; exact hb⟩
      · intro hty2
        exact absurd hty2 hty
      · intro _ hrel hrela hc
        have hlne : l ≠ [] := by
          intro hnil
          rw [hnil] at hlen
          simp at hlen
          omega
        have hne : ({ st with relocsAddends := st.relocsAddends ++ l } : ElfState).relocsAddends
            ≠ [] := by
          simp only [hrela, List.nil_append]
          exact hlne
        rw [dumpRelocs_head_rela is32 { st with relocsAddends := st.relocsAddends ++ l }
          (show ({ st with relocsAddends := st.relocsAddends ++ l } : ElfState).relocs = []
            from hrel) hne]
        simp only [hrela, List.nil_append, hlen]

/-- Witness for C2: parsing the two-entry `.rel.dyn` fixture appends
two entries recorded at offsets 0 and 8, routed through the recognized
dispatch, and the dump header reports 2. -/
theorem addRels_decodes_all_witness :
    processSection fixRelFile 4 fixRelInit fixRelShdr
      = addRels fixRelFile 4 fixRelInit fixRelShdr ∧
    (∃ l, fixRelParsed.relocs = fixRelInit.relocs ++ l ∧ l.length = 2 ∧
      ∀ i, i < l.length → (l.getD i defRel).1 = 0 + i * 8) ∧
    (dumpRelocs true fixRelParsed).head? = some (relCountHeader 2) := by
  have h := addRels_decodes_all true fixRelFile fixRelInit fixRelShdr fixRelParsed (by decide)
  refine ⟨h.1 (Or.inl rfl) (Or.inl (by decide)), ?_, ?_⟩
  · obtain ⟨_, _, _, l, hl1, hl2, hl3⟩ := h.2.1 rfl
    exact ⟨l, hl1, hl2, fun i hi => (hl3 i hi).1⟩
  · exact h.2.2.2.1 rfl rfl (by decide)

/-- C3 counterexample: later duplicate recognized sections are NOT
ignored.  Parsing a table holding two `.dynstr` sections leaves the
dynamic string table equal to the second section's bytes `[1, 0]`, not
the first occurrence's `[2, 0]`. -/
theorem parse_duplicates_cex :
    (parseSections fixStrFile 4 fixStrInit [fixStrShdrA]).map ElfState.stringTable
      = some [2, 0] ∧
    (parseSections fixStrFile 4 fixStrInit [fixStrShdrA, fixStrShdrB]).map
        ElfState.stringTable = some [1, 0] ∧
    ([1, 0] : List Nat) ≠ [2, 0] := by decide

/-- C3 amended: the loader processes every occurrence of a recognized
section, not only the first: a recognized `.dynstr` replaces the
dynamic string table wholesale with that section's bytes (so the last
occurrence wins), a recognized `.dynsym` appends its symbols after
those already loaded, and a recognized relocation section appends its
entries after those already stored in the matching sequence. -/
theorem processSection_duplicates (f : List Nat) (w : Nat) (st : ElfState) (sh : Shdr)
    (st' : ElfState) :
    (sh.sh_type = SHT_STRTAB →
      isSection st.sectionStringTable sh.sh_name dynstrName →
      processSection f w st sh = some st' →
      st'.stringTable = extract f sh.sh_offset sh.sh_size ∧
      st'.relocs = st.relocs ∧ st'.relocsAddends = st.relocsAddends ∧
      st'.symbolTable = st.symbolTable) ∧
    (sh.sh_type = SHT_DYNSYM →
      isSection st.sectionStringTable sh.sh_name dynsymName →
      processSection f w st sh = some st' →
      st'.stringTable = st.stringTable ∧ st'.relocs = st.relocs ∧
      st'.relocsAddends = st.relocsAddends ∧
      ∃ l, st'.symbolTable = st.symbolTable ++ l) ∧
    ((sh.sh_type = SHT_REL ∨ sh.sh_type = SHT_RELA) →
      (isSection st.sectionStringTable sh.sh_name relDynName
        ∨ isSection st.sectionStringTable sh.sh_name relaDynName
        ∨ isSection st.sectionStringTable sh.sh_name relaPltName) →
      processSection f w st sh = some st' →
      (st'.relocsAddends = st.relocsAddends ∧ ∃ l, st'.relocs = st.relocs ++ l) ∨
      (st'.relocs = st.relocs ∧ ∃ l, st'.relocsAddends = st.relocsAddends ++ l)) := by
  refine ⟨?_, ?_, ?_⟩
  · intro hty hname hp
    rw [processSection, if_neg (fun hcond => by
        rcases hcond.1 with h | h <;> rw [hty] at h <;> exact absurd h (by decide)),
      if_pos ⟨hty, hname⟩, addStringTable] at hp
    cases hb : readBytes f sh.sh_offset sh.sh_size with
    | none => rw [hb] at hp; exact absurd hp (by simp)
    | some bs =>
      rw [hb] at hp
      injection hp with hp
      subst hp
      rw [readBytes] at hb
      split at hb
      · injection hb with hb
        subst hb
        exact ⟨rfl, rfl, rfl, rfl⟩
      · exact absurd hb (by simp)
  · intro hty hname hp
    rw [processSection, if_neg (fun hcond => by
        rcases hcond.1 with h | h <;> rw [hty] at h <;> exact absurd h (by decide)),
      if_neg (fun hcond => by
        have h := hcond.1
        rw [hty] at h
        exact absurd h (by decide)),
      if_pos ⟨hty, hname⟩, addSymbolTable] at hp
    cases hs : readSyms f sh.sh_entsize sh.sh_offset (sh.sh_size / sh.sh_entsize) with
    | none => rw [hs] at hp; exact absurd hp (by simp)
    | some l =>
      rw [hs] at hp
      injection hp with hp
      subst hp
      exact ⟨rfl, rfl, rfl, l, rfl⟩
  · intro hty hname hp
    rw [processSection, if_pos ⟨hty, hname⟩, addRels] at hp
    by_cases h9 : sh.sh_type = SHT_REL
    · rw [if_pos h9] at hp
      cases hr : readRels f w sh.sh_offset (sh.sh_size / sh.sh_entsize) with
      | none => rw [hr] at hp; exact absurd hp (by simp)
      | some l =>
        rw [hr] at hp
        injection hp with hp
        subst hp
        exact Or.inl ⟨rfl, l, rfl⟩
    · rw [if_neg h9] at hp
      cases hr : readRelas f w sh.sh_offset (sh.sh_size / sh.sh_entsize) with
      | none => rw [hr] at hp; exact absurd hp (by simp)
      | some l =>
        rw [hr] at hp
        injection hp with hp
        subst hp
        exact Or.inr ⟨rfl, l, rfl⟩

/-- Witness for the amended C3: processing the duplicate `.dynstr`
fixture over a model already holding `[2, 0]` replaces the string table
with the second section's bytes. -/
theorem processSection_duplicates_witness :
    (⟨[], [], [], [1, 0], fixStrSst⟩ : ElfState).stringTable
      = extract fixStrFile fixStrShdrB.sh_offset fixStrShdrB.sh_size ∧
    (⟨[], [], [], [1, 0], fixStrSst⟩ : ElfState).relocs
      = (⟨[], [], [], [2, 0], fixStrSst⟩ : ElfState).relocs := by
  have h := (processSection_duplicates fixStrFile 4 ⟨[], [], [], [2, 0], fixStrSst⟩
    fixStrShdrB ⟨[], [], [], [1, 0], fixStrSst⟩).1 rfl (by decide) (by decide)
  exact ⟨h.1, h.2.1⟩

end Relocswap
